import Mathlib

/-!
Verification of `advanced-vector/vector.h`: a growable contiguous container
(`Vector<T>`) built on a raw-memory wrapper (`RawMemory<T>`).

The embedding models the raw buffer as a list of cells; a cell `some a`
is a constructed `T` object holding value `a`, a cell `none` is
uninitialized storage.  Element operations that may throw (`T`'s
constructors, copy/move assignments) are driven by explicit failure
schedules, so both the success paths and the `catch` handlers of the
source are modeled.  Places where the source performs undefined behavior
(an invalid iterator range, destroying an unconstructed slot) are modeled
by an explicit `ub` outcome.
-/

namespace AdvVector

/-- A storage cell of the raw buffer: `some a` models a constructed `T`
object with value `a`; `none` models uninitialized storage. -/
abbrev Cell (α : Type) := Option α

/-- State of `Vector<T>`: `data` models the cells of the owned
`RawMemory` buffer (`data.length` is `data_.Capacity()`), `size` models
`size_`. -/
structure Vec (α : Type) where
  data : List (Cell α)
  size : Nat
deriving DecidableEq, Repr

variable {α : Type}

/-- `Capacity()` of the vector: the slot count of its raw buffer. -/
def Vec.capacity (v : Vec α) : Nat := v.data.length

/-- The live element values in order: the values held by cells `[0, size)`. -/
def Vec.elems (v : Vec α) : List α := (v.data.take v.size).reduceOption

/-- The `Vector` class invariant: `size_ ≤ Capacity()`, cells `[0, size)`
hold constructed objects, cells `[size, capacity)` are uninitialized. -/
def WF (v : Vec α) : Prop :=
  v.size ≤ v.data.length ∧
    ∀ i, i < v.data.length → ((v.data.getD i none).isSome ↔ i < v.size)

instance (v : Vec α) : Decidable (WF v) := by
  unfold WF; infer_instance

/-- Placement-construct the cells `xs` into consecutive slots of `dst`
starting at slot `t0`: the per-element loop of
`std::uninitialized_copy/move(_n)` writing increasing destination
addresses (each step is one placement `new` of a source value). -/
def writeSeg : List (Cell α) → Nat → List (Cell α) → List (Cell α)
  | dst, _, [] => dst
  | dst, t0, c :: cs => writeSeg (dst.set t0 c) (t0 + 1) cs

/-- `std::destroy_n(buf + s, n)`: ends the lifetime of the `n` objects in
slots `[s, s+n)`, leaving the cells uninitialized. -/
def destroyRange (dst : List (Cell α)) (s n : Nat) : List (Cell α) :=
  writeSeg dst s (List.replicate n none)

/-- `std::move(first, last, dfirst)` / `std::move_backward(first, last, dlast)`
on buffer indices, by the standard algorithms' contract: the cells
`[first, last)` are moved into the destination range of the same length
starting at `dfirst`.  Requires a valid range `first ≤ last` (checked at
each call site; `first > last` is undefined behavior) and a destination
that does not overtake unread sources, as in this header's calls
(`Emplace` uses `dfirst = first + 1` walking backward, `Erase` uses
`dfirst = first - 1` walking forward). -/
def moveRange (l : List (Cell α)) (first last dfirst : Nat) : List (Cell α) :=
  writeSeg l dfirst ((l.drop first).take (last - first))

end AdvVector

namespace AdvVector

/-- Insertion of `x` before index `d` of a value list (the abstract effect
`Insert`/`Emplace` should have on the element sequence). -/
def insAt (d : Nat) (x : α) (L : List α) : List α := L.take d ++ x :: L.drop d

/-- Removal of the element at index `d` of a value list (the abstract
effect of `Erase`). -/
def removeAt (d : Nat) (L : List α) : List α := L.take d ++ L.drop (d + 1)

/-- Failure schedule for the growth path of `Emplace`: `argFail` makes the
in-place construction of the new element from `args...` throw;
`prefFail = some k` (with `k` below the prefix length) makes the `k`-th
element transfer of the prefix `[begin, pos)` throw; `sufFail` likewise
for the suffix `[pos, end)`.  A transfer can throw when the copying
branch of the `if constexpr` is taken (throwing copy constructor), or in
the move branch when `T` is not copy-constructible and has a throwing
move constructor. -/
structure GrowFail where
  argFail : Bool
  prefFail : Option Nat
  sufFail : Option Nat
deriving DecidableEq, Repr

/-- Failure schedule for the no-growth path of `Emplace`: `tmpFail` makes
`T tmp(args...)` throw; `moveLastFail` makes the move-construction of the
last element into the trailing slot throw; `shiftFail = some k` makes the
`k`-th move-assignment of `std::move_backward` throw; `assignFail` makes
the final move-assignment into `pos` throw. -/
structure NoGrowFail where
  tmpFail : Bool
  moveLastFail : Bool
  shiftFail : Option Nat
  assignFail : Bool
deriving DecidableEq, Repr

/-- The all-success schedule for the growth path. -/
def growOk : GrowFail := ⟨false, none, none⟩

/-- The all-success schedule for the no-growth path. -/
def noGrowOk : NoGrowFail := ⟨false, false, none, false⟩

/-- `failsAt f n = true` when schedule entry `f = some k` places a throw at
operation index `k` within a phase of `n` operations. -/
def failsAt (f : Option Nat) (n : Nat) : Bool :=
  match f with
  | some k => decide (k < n)
  | none => false

/-- The operation index at which a scheduled throw happens. -/
def failIdx (f : Option Nat) : Nat := f.getD 0

/-- Result of a call to `Emplace` (and operations built on it):
`ok v r` = normal return of iterator index `r` with new vector state `v`;
`thrown v leak` = an exception propagated, leaving vector state `v`, where
`leak` records the cells of the discarded freshly-allocated buffer at the
moment its `RawMemory` destructor deallocated it (any `some` cell in it is
a constructed object that was never destroyed, i.e. a leak);
`ub` = the call ran into undefined behavior. -/
inductive Outcome (α : Type) where
  | ok (v : Vec α) (ret : Nat)
  | thrown (v : Vec α) (leak : List (Cell α))
  | ub
deriving DecidableEq, Repr

/-- Observable element events of the growth path, in execution order. -/
inductive Ev where
  | constructNew
  | transferPref (i : Nat)
  | transferSuf (i : Nat)
  | destroyOld
  | adopt
deriving DecidableEq, Repr

/-- `size_ == 0 ? new_capacity = 1 : new_capacity = size_ * 2` of `Emplace`. -/
def newCapOf (n : Nat) : Nat := if n = 0 then 1 else n * 2

/-- Growth path of `Vector::Emplace` (taken when `size_ == Capacity()`),
with the failure schedule `gf` deciding which element operations throw:
allocate `new_capacity` slots; placement-construct the new element at slot
`d` of the new buffer (outside any `try`: a throw propagates and the new
buffer is deallocated empty); transfer the prefix `[begin, begin+d)` — on
a throw the transfer algorithm destroys its own partial work and the
`catch` runs `std::destroy_at(new_data + d)` then rethrows; transfer the
suffix `[begin+d, end)` to slots `[d+1, …)` — on a throw the `catch` runs
`std::destroy_n(new_data.GetAddress(), d)` then rethrows (note: this
destroys only the prefix, not the new element at slot `d`); on success
`std::destroy_n(old, size_)` then `data_.Swap(new_data)`.  Also returns
the event trace. -/
def emplaceG (v : Vec α) (d : Nat) (x : α) (gf : GrowFail) :
    Outcome α × List Ev :=
  let nc := newCapOf v.size
  let buf0 : List (Cell α) := List.replicate nc none
  if gf.argFail then
    (.thrown v buf0, [])
  else
    let buf1 := buf0.set d (some x)
    if failsAt gf.prefFail d then
      (.thrown v (buf1.set d none),
        .constructNew :: (List.range (failIdx gf.prefFail)).map .transferPref)
    else
      let buf2 := writeSeg buf1 0 (v.data.take d)
      if failsAt gf.sufFail (v.size - d) then
        (.thrown v (destroyRange buf2 0 d),
          .constructNew :: ((List.range d).map .transferPref
            ++ (List.range (failIdx gf.sufFail)).map .transferSuf))
      else
        let buf3 := writeSeg buf2 (d + 1) ((v.data.drop d).take (v.size - d))
        (.ok ⟨buf3, v.size + 1⟩ d,
          .constructNew :: ((List.range d).map .transferPref
            ++ ((List.range (v.size - d)).map .transferSuf
              ++ [.destroyOld, .adopt])))

/-- No-growth path of `Vector::Emplace` (taken when `size_ < Capacity()`).
Empty vector: placement-construct from `args...` directly at slot `d`
(a throw propagates with nothing changed).  Non-empty: `T tmp(args...)`
(outside the `try`; a throw propagates with nothing changed); then inside
the `try`: move-construct the last element into slot `size_`, shift
`[begin+d, end()-1)` up one slot with `std::move_backward` (an invalid
range — hence undefined behavior — when `d = size_`, since `first`
is then past `last`), and move-assign `tmp` into slot `d`.  The `catch`
handler runs `std::destroy_at(data_ + size_ + 1)` — slot `size_ + 1` is
never constructed, so every caught throw is undefined behavior. -/
def emplaceNG (v : Vec α) (d : Nat) (x : α) (nf : NoGrowFail) :
    Outcome α × List Ev :=
  if v.size = 0 then
    if nf.tmpFail then (.thrown v [], [])
    else (.ok ⟨v.data.set d (some x), v.size + 1⟩ d, [])
  else
    if nf.tmpFail then (.thrown v [], [])
    else if nf.moveLastFail then (.ub, [])
    else
      let l1 := v.data.set v.size (v.data.getD (v.size - 1) none)
      if d < v.size then
        if failsAt nf.shiftFail (v.size - 1 - d) then (.ub, [])
        else
          let l2 := moveRange l1 d (v.size - 1) (d + 1)
          if nf.assignFail then (.ub, [])
          else (.ok ⟨l2.set d (some x), v.size + 1⟩ d, [])
      else (.ub, [])

/-- `Vector::Emplace(pos, args...)` with `d = std::distance(cbegin(), pos)`.
A position outside `[begin, end]` is a precondition violation (undefined
behavior).  Dispatches on `size_ == Capacity()`. -/
def emplace (v : Vec α) (d : Nat) (x : α) (gf : GrowFail) (nf : NoGrowFail) :
    Outcome α × List Ev :=
  if v.size < d then (.ub, [])
  else if v.size = v.capacity then emplaceG v d x gf
  else emplaceNG v d x nf

/-- `Vector::EmplaceBack(args...)`: literally `Emplace(cend(), args...)`,
i.e. `Emplace` at distance `size_`. -/
def emplaceBack (v : Vec α) (x : α) (gf : GrowFail) (nf : NoGrowFail) :
    Outcome α × List Ev :=
  emplace v v.size x gf nf

/-- `Vector::Erase(pos)` at `d = std::distance(cbegin(), pos)`:
`std::move(begin()+d+1, end(), begin()+d)`, then
`std::destroy_at(data_ + size_ - 1)`, `--size_`, return `data_ + d`.
Requires a dereferenceable position (`d < size_`), checked by callers. -/
def eraseV (v : Vec α) (d : Nat) : Vec α × Nat :=
  (⟨(moveRange v.data (d + 1) v.size d).set (v.size - 1) none, v.size - 1⟩, d)

/-- `Vector::PopBack()`: `std::destroy_at(data_ + size_ - 1); --size_;`.
Calling it on an empty vector is undefined behavior (checked by callers). -/
def popBackV (v : Vec α) : Vec α :=
  ⟨v.data.set (v.size - 1) none, v.size - 1⟩

/-- The `if constexpr` transfer-strategy condition of `Reserve` and the
growth path: `!std::is_copy_constructible_v<T> ||
std::is_nothrow_move_constructible_v<T>` — `true` selects
`uninitialized_move`, `false` selects `uninitialized_copy`.  `cc` models
`is_copy_constructible_v<T>`, `nm` models
`is_nothrow_move_constructible_v<T>`. -/
def reserveTransferByMove (cc nm : Bool) : Bool := !cc || nm

/-- State effect of `Vector::Reserve(capacity)`: if `capacity > Capacity()`,
allocate exactly `capacity` slots, transfer the `size_` live cells into
them, `std::destroy_n` the originals and `Swap` buffers; otherwise do
nothing.  (Move and copy transfers write the same values; the originals
are destroyed right after either way.) -/
def reserveCore (v : Vec α) (n : Nat) : Vec α :=
  if v.capacity < n then
    ⟨writeSeg (List.replicate n none) 0 (v.data.take v.size), v.size⟩
  else v

/-- `Vector::Reserve` together with the transfer strategy it used:
`some true` = elements were transferred by `uninitialized_move`,
`some false` = by `uninitialized_copy`, `none` = no transfer happened. -/
def reserve (v : Vec α) (n : Nat) (cc nm : Bool) : Vec α × Option Bool :=
  (reserveCore v n,
    if v.capacity < n then some (reserveTransferByMove cc nm) else none)

/-- `Vector::Resize(new_size)`: shrink destroys the trailing cells; grow
first calls `Reserve(new_size)` then value-constructs the new trailing
cells (`x` models the value produced by `T`'s value-construction). -/
def resizeV (v : Vec α) (n : Nat) (x : α) : Vec α :=
  if n < v.size then ⟨destroyRange v.data n (v.size - n), n⟩
  else if v.size < n then
    let w := reserveCore v n
    ⟨writeSeg w.data v.size (List.replicate (n - v.size) (some x)), n⟩
  else v

/-- `Vector::Vector(Vector&& other)`: adopts `other`'s buffer and size
(`data_(std::move(other.data_)), size_(std::exchange(other.size_, 0))`);
the moved-from `RawMemory` is left with a null buffer and capacity 0.
Returns (the new vector, `other`'s state afterward).  Never throws. -/
def moveCtorV (other : Vec α) : Vec α × Vec α :=
  (⟨other.data, other.size⟩, ⟨[], 0⟩)

/-- Result of copy-assignment: `ok` = normal return, `thrown` = an element
copy threw and propagated (there is no `catch` in `operator=`), with the
left-hand side's state at that moment. -/
inductive AOut (α : Type) where
  | ok (v : Vec α)
  | thrown (v : Vec α)
deriving DecidableEq, Repr

/-- Failure schedule for copy-assignment: `tmpFail = some k` makes the
`k`-th element copy of `Vector tmp(rhs)` throw; `prefFail = some k` makes
the `k`-th in-place copy-assignment `data_[i] = rhs.data_[i]` throw;
`tailFail = some k` makes the `k`-th copy of
`std::uninitialized_copy_n(rhs.data_ + size_, …)` throw. -/
structure AssignFail where
  tmpFail : Option Nat
  prefFail : Option Nat
  tailFail : Option Nat
deriving DecidableEq, Repr

/-- The all-success schedule for copy-assignment. -/
def assignOk : AssignFail := ⟨none, none, none⟩

/-- `Vector::operator=(const Vector& rhs)` for distinct objects
(`this != &rhs`).  If `rhs.size_ > Capacity()`: `Vector tmp(rhs)` — the
copy constructor allocates `rhs.size_` slots and copy-constructs each
element, destroying its partial work if a copy throws — then `Swap(tmp)`.
Otherwise in place: copy-assign the overlapping prefix
(`i < min(rhs.size_, size_)`); then destroy the surplus trailing cells
(when `rhs.size_ ≤ size_`) or copy-construct `rhs`'s extra trailing
elements into the uninitialized tail; finally `size_ = rhs.size_`. -/
def copyAssign (v rhs : Vec α) (af : AssignFail) : AOut α :=
  if v.capacity < rhs.size then
    if failsAt af.tmpFail rhs.size then .thrown v
    else .ok ⟨rhs.data.take rhs.size, rhs.size⟩
  else
    let m := min rhs.size v.size
    if failsAt af.prefFail m then
      .thrown ⟨writeSeg v.data 0 (rhs.data.take (failIdx af.prefFail)), v.size⟩
    else
      let d1 := writeSeg v.data 0 (rhs.data.take m)
      if rhs.size ≤ v.size then
        .ok ⟨destroyRange d1 rhs.size (v.size - rhs.size), rhs.size⟩
      else
        if failsAt af.tailFail (rhs.size - v.size) then .thrown ⟨d1, v.size⟩
        else
          .ok ⟨writeSeg d1 v.size ((rhs.data.drop v.size).take (rhs.size - v.size)),
            rhs.size⟩

/-- The canonical well-formed state with live values `L` followed by `k`
uninitialized slots. -/
def mkVec (L : List α) (k : Nat) : Vec α :=
  ⟨L.map some ++ List.replicate k none, L.length⟩

theorem writeSeg_length (xs : List (Cell α)) :
    ∀ (dst : List (Cell α)) (t0 : Nat), (writeSeg dst t0 xs).length = dst.length := by
  induction xs with
  | nil => intro dst t0; rfl
  | cons c cs ih =>
    intro dst t0
    rw [writeSeg, ih, List.length_set]

theorem writeSeg_eq (xs : List (Cell α)) :
    ∀ (dst : List (Cell α)) (t0 : Nat), t0 + xs.length ≤ dst.length →
      writeSeg dst t0 xs = dst.take t0 ++ xs ++ dst.drop (t0 + xs.length) := by
  induction xs with
  | nil =>
    intro dst t0 h
    simp [writeSeg, List.take_append_drop]
  | cons c cs ih =>
    intro dst t0 h
    simp only [List.length_cons] at h
    have ht : t0 < dst.length := by omega
    rw [writeSeg, ih (dst.set t0 c) (t0 + 1)
      (by rw [List.length_set]; omega)]
    rw [List.set_eq_take_cons_drop c ht]
    have htk : (dst.take t0).length = t0 := by
      rw [List.length_take]; omega
    rw [List.take_append_eq_append_take, List.drop_append_eq_append_drop, htk]
    have e1 : List.take (t0 + 1) (dst.take t0) = dst.take t0 :=
      List.take_of_length_le (by omega)
    have e2 : t0 + 1 - t0 = 1 := by omega
    have e3 : List.drop (t0 + 1 + cs.length) (dst.take t0) = [] :=
      List.drop_of_length_le (by omega)
    have e4 : t0 + 1 + cs.length - t0 = cs.length + 1 := by omega
    rw [e1, e2, e3, e4]
    simp only [List.take_succ_cons, List.take_zero, List.drop_succ_cons,
      List.drop_drop, List.nil_append, List.length_cons]
    have e5 : t0 + 1 + cs.length = t0 + (cs.length + 1) := by omega
    simp [e5]

theorem mkVec_capacity (L : List α) (k : Nat) :
    (mkVec L k).capacity = L.length + k := by
  simp [mkVec, Vec.capacity]

theorem mkVec_size (L : List α) (k : Nat) : (mkVec L k).size = L.length := rfl

theorem reduceOption_map_some (L : List α) : (L.map some).reduceOption = L := by
  induction L with
  | nil => rfl
  | cons a t ih => simp [List.reduceOption_cons_of_some, ih]

theorem mkVec_elems (L : List α) (k : Nat) : (mkVec L k).elems = L := by
  simp only [mkVec, Vec.elems, List.take_append_eq_append_take]
  rw [List.take_of_length_le (by simp), List.length_map]
  simp [reduceOption_map_some]

theorem mkVec_WF (L : List α) (k : Nat) : WF (mkVec L k) := by
  constructor
  · simp [mkVec]
  · intro i hi
    simp only [mkVec]
    by_cases hL : i < L.length
    · rw [List.getD_append _ _ _ i (by simpa using hL)]
      rw [List.getD_eq_getElem?_getD, List.getElem?_map]
      rw [List.getElem?_eq_getElem hL]
      simp [hL]
    · rw [List.getD_append_right _ _ _ i (by simpa using hL)]
      rw [List.getD_eq_getElem?_getD, List.getElem?_replicate]
      simp only [List.length_map]
      split
      · simp [hL]
      · simp [hL]

theorem WF.eq_mkVec {v : Vec α} (h : WF v) :
    v = mkVec v.elems (v.capacity - v.size) := by
  obtain ⟨hle, hcell⟩ := h
  have htake : v.data.take v.size = v.elems.map some := by
    have hall : ∀ c ∈ v.data.take v.size, c.isSome := by
      intro c hc
      obtain ⟨i, hi, rfl⟩ := List.mem_iff_getElem.mp hc
      have hi2 : i < v.size := by
        have := hi; rw [List.length_take] at this; omega
      have hi3 : i < v.data.length := by omega
      rw [List.getElem_take]
      have := (hcell i hi3).mpr hi2
      rwa [List.getD_eq_getElem?_getD, List.getElem?_eq_getElem hi3] at this
    have : (v.data.take v.size).reduceOption.map some = v.data.take v.size := by
      generalize v.data.take v.size = l at hall ⊢
      induction l with
      | nil => rfl
      | cons c t ih =>
        match c, hall c (List.mem_cons_self _ _) with
        | some a, _ =>
          rw [List.reduceOption_cons_of_some, List.map_cons]
          rw [ih (fun d hd => hall d (List.mem_cons_of_mem _ hd))]
    exact this.symm
  have hdrop : v.data.drop v.size = List.replicate (v.capacity - v.size) none := by
    rw [List.eq_replicate_iff]
    constructor
    · rw [List.length_drop]; rfl
    · intro c hc
      obtain ⟨j, hj, rfl⟩ := List.mem_iff_getElem.mp hc
      have hj2 : v.size + j < v.data.length := by
        rw [List.length_drop] at hj; omega
      rw [List.getElem_drop]
      have hns : ¬ v.size + j < v.size := by omega
      have := (hcell (v.size + j) hj2)
      rw [List.getD_eq_getElem?_getD, List.getElem?_eq_getElem hj2] at this
      simp only [Option.getD_some] at this
      rcases ho : v.data[v.size + j] with _ | a
      · rfl
      · exfalso; exact hns (this.mp (by rw [ho]; rfl))
  have hsz : v.size = v.elems.length := by
    have := congrArg List.length htake
    rw [List.length_take, List.length_map] at this
    omega
  have hdata : v.data = v.elems.map some ++ List.replicate (v.capacity - v.size) none := by
    conv_lhs => rw [← List.take_append_drop v.size v.data]
    rw [htake, hdrop]
  cases v with
  | mk data size =>
    simp only [mkVec, Vec.mk.injEq]
    exact ⟨hdata, hsz⟩

theorem length_insAt (d : Nat) (x : α) (L : List α) (hd : d ≤ L.length) :
    (insAt d x L).length = L.length + 1 := by
  simp only [insAt, List.length_append, List.length_cons, List.length_take,
    List.length_drop]
  omega

theorem removeAt_insAt (d : Nat) (x : α) (L : List α) (hd : d ≤ L.length) :
    removeAt d (insAt d x L) = L := by
  have htk : (L.take d).length = d := by rw [List.length_take]; omega
  simp only [removeAt, insAt, List.take_append_eq_append_take, htk,
    List.drop_append_eq_append_drop]
  rw [List.take_of_length_le (le_of_eq htk), Nat.sub_self, List.take_zero,
    List.drop_of_length_le (by omega)]
  have e1 : d + 1 - d = 1 := by omega
  rw [e1]
  simp [List.take_append_drop]

theorem set_replicate_none (nc d : Nat) (x : α) (h : d < nc) :
    (List.replicate nc (none : Cell α)).set d (some x)
      = List.replicate d none ++ some x :: List.replicate (nc - d - 1) none := by
  rw [List.set_eq_take_cons_drop _ (by simpa using h), List.take_replicate,
    List.drop_replicate]
  have e1 : d ⊓ nc = d := by omega
  have e2 : nc - (d + 1) = nc - d - 1 := by omega
  rw [e1, e2]

theorem newCapOf_ge (n : Nat) : n + 1 ≤ newCapOf n := by
  unfold newCapOf
  split <;> omega

/-- Success-path characterization of the growth branch of `Emplace` on a
full well-formed vector. -/
theorem emplaceG_mkVec (L : List α) (d : Nat) (x : α) (hd : d ≤ L.length) :
    emplaceG (mkVec L 0) d x growOk =
      (.ok (mkVec (insAt d x L) (newCapOf L.length - (L.length + 1))) d,
        .constructNew :: ((List.range d).map .transferPref
          ++ ((List.range (L.length - d)).map .transferSuf
            ++ [.destroyOld, .adopt]))) := by
  have hnc := newCapOf_ge L.length
  set n := L.length with hn
  set nc := newCapOf n with hncdef
  have hdn : d < nc := by omega
  have hdata : (mkVec L 0).data = L.map some := by simp [mkVec]
  have hsize : (mkVec L 0).size = n := rfl
  have hbuf1 : (List.replicate nc (none : Cell α)).set d (some x)
      = List.replicate d none ++ some x :: List.replicate (nc - d - 1) none :=
    set_replicate_none nc d x hdn
  have htkd : ((L.take d).map some).length = d := by
    rw [List.length_map, List.length_take]; omega
  have hbuf2 : writeSeg ((List.replicate nc (none : Cell α)).set d (some x)) 0
        ((mkVec L 0).data.take d)
      = (L.take d).map some ++ some x :: List.replicate (nc - d - 1) none := by
    rw [hdata, ← List.map_take, hbuf1]
    rw [writeSeg_eq _ _ 0
      (by simp only [List.length_append, List.length_map, List.length_take,
        List.length_cons, List.length_replicate]; omega)]
    rw [List.take_zero, Nat.zero_add, htkd, List.drop_append_eq_append_drop]
    rw [List.drop_of_length_le (by simp), List.length_replicate, Nat.sub_self,
      List.drop_zero, List.nil_append, List.nil_append]
  have hseg2 : ((mkVec L 0).data.drop d).take (n - d) = (L.drop d).map some := by
    rw [hdata, ← List.map_drop]
    exact List.take_of_length_le (by rw [List.length_map, List.length_drop])
  have hbuf2len : ((L.take d).map some ++ some x :: List.replicate (nc - d - 1) none).length = nc := by
    simp only [List.length_append, List.length_cons, List.length_replicate, htkd]
    omega
  have hbuf3 : writeSeg ((L.take d).map some ++ some x :: List.replicate (nc - d - 1) none)
        (d + 1) ((L.drop d).map some)
      = (insAt d x L).map some ++ List.replicate (nc - (n + 1)) none := by
    rw [writeSeg_eq _ _ (d + 1)
      (by rw [hbuf2len, List.length_map, List.length_drop]; omega)]
    have hA : List.take (d + 1) ((L.take d).map some) = (L.take d).map some :=
      List.take_of_length_le (by rw [htkd]; omega)
    have hB : List.drop (d + 1 + ((L.drop d).map some).length)
        ((L.take d).map some) = [] :=
      List.drop_of_length_le (by rw [htkd]; omega)
    rw [List.take_append_eq_append_take, List.drop_append_eq_append_drop,
      hA, hB, htkd]
    have e1 : d + 1 - d = 1 := by omega
    have e2 : d + 1 + ((L.drop d).map some).length - d
        = n - d + 1 := by
      rw [List.length_map, List.length_drop]; omega
    rw [e1, e2]
    simp only [List.take_succ_cons, List.take_zero, List.drop_succ_cons,
      List.drop_replicate, List.nil_append]
    have e3 : nc - d - 1 - (n - d) = nc - (n + 1) := by omega
    rw [e3]
    simp [insAt, List.map_append]
  rw [hdata] at hbuf2 hseg2
  show emplaceG (mkVec L 0) d x growOk = _
  unfold emplaceG
  simp only [growOk, failsAt, hsize, hdata, Bool.false_eq_true, if_false,
    reduceIte]
  rw [← hncdef, hbuf2, hseg2, hbuf3]
  simp [mkVec, length_insAt d x L hd]

/-- Success-path characterization of the no-growth branch of `Emplace` on
a non-empty vector with spare capacity, at a dereferenceable position. -/
theorem emplaceNG_mkVec (L : List α) (k d : Nat) (x : α) (hd : d < L.length) :
    emplaceNG (mkVec L (k + 1)) d x noGrowOk =
      (.ok (mkVec (insAt d x L) k) d, []) := by
  set n := L.length with hn
  have hn1 : 1 ≤ n := by omega
  have hdata : (mkVec L (k + 1)).data
      = L.map some ++ List.replicate (k + 1) none := rfl
  have hsize : (mkVec L (k + 1)).size = n := rfl
  have hmaplen : (L.map some).length = n := by rw [List.length_map]
  have hb : (n - 1) < (L.map some).length := by omega
  have hbL : n - 1 < L.length := by omega
  have hc : (L.map some ++ List.replicate (k + 1) none).getD (n - 1) none
      = some (L.get ⟨n - 1, hbL⟩) := by
    rw [List.getD_append _ _ _ _ hb, List.getD_eq_getElem?_getD,
      List.getElem?_map, List.getElem?_eq_getElem hbL]
    rfl
  have hl1 : (L.map some ++ List.replicate (k + 1) none).set n (some (L.get ⟨n - 1, hbL⟩))
      = L.map some ++ some (L.get ⟨n - 1, hbL⟩) :: List.replicate k none := by
    rw [List.set_append,
      if_neg (by rw [hmaplen]; omega : ¬ n < (L.map some).length)]
    rw [hmaplen, Nat.sub_self, List.replicate_succ]
    rfl
  set b := L.get ⟨n - 1, hbL⟩ with hbdef
  have hl1drop : (L.map some ++ some b :: List.replicate k none).drop d
      = (L.drop d).map some ++ some b :: List.replicate k none := by
    rw [List.drop_append_eq_append_drop, hmaplen, List.map_drop]
    have e : d - n = 0 := by omega
    rw [e, List.drop_zero]
  have hseg : ((L.drop d).map some ++ some b :: List.replicate k none).take (n - 1 - d)
      = ((L.drop d).take (n - 1 - d)).map some := by
    rw [List.take_append_eq_append_take]
    have e1 : ((L.drop d).map some).length = n - d := by
      rw [List.length_map, List.length_drop]
    have e2 : n - 1 - d - ((L.drop d).map some).length = 0 := by
      rw [e1]; omega
    rw [e2, List.take_zero, List.append_nil, List.map_take]
  set M := (L.drop d).take (n - 1 - d) with hM
  have hMlen : (M.map some).length = n - 1 - d := by
    rw [List.length_map, hM, List.length_take, List.length_drop]; omega
  have hl1len : (L.map some ++ some b :: List.replicate k none).length
      = n + k + 1 := by
    simp only [List.length_append, List.length_cons, List.length_replicate,
      hmaplen]
    omega
  have hl2 : writeSeg (L.map some ++ some b :: List.replicate k none) (d + 1)
        (M.map some)
      = (L.take (d + 1)).map some ++ M.map some
          ++ some b :: List.replicate k none := by
    rw [writeSeg_eq _ _ (d + 1) (by rw [hl1len, hMlen]; omega)]
    rw [List.take_append_eq_append_take, hmaplen]
    have e1 : d + 1 - n = 0 := by omega
    rw [e1, List.take_zero, List.append_nil]
    rw [List.drop_append_eq_append_drop, hmaplen, hMlen]
    have e3 : List.drop (d + 1 + (n - 1 - d)) (L.map some) = [] :=
      List.drop_of_length_le (by rw [hmaplen]; omega)
    have e2 : d + 1 + (n - 1 - d) - n = 0 := by omega
    rw [e3, e2, List.drop_zero, List.nil_append, ← List.map_take]
  have hMb : M ++ [b] = L.drop d := by
    have e1 : (L.drop d).drop (n - 1 - d) = L.drop (n - 1) := by
      rw [List.drop_drop]
      congr 1
      omega
    have e2 : L.drop (n - 1) = [b] := by
      rw [List.drop_eq_getElem_cons hbL, List.drop_of_length_le (by omega),
        hbdef]
      rfl
    calc M ++ [b] = (L.drop d).take (n - 1 - d) ++ (L.drop d).drop (n - 1 - d) := by
          rw [hM, e1, e2]
      _ = L.drop d := List.take_append_drop _ _
  have e2set : ((L.take (d + 1)).map some).set d (some x)
      = (L.take d).map some ++ [some x] := by
    have e1 : (L.take (d + 1)).map some = (L.take d).map some ++ [some (L.get ⟨d, hd⟩)] := by
      have hd2 : d < (L.map some).length := by rw [hmaplen]; omega
      rw [List.map_take, List.map_take, List.take_succ,
        List.getElem?_eq_getElem hd2]
      simp
    rw [e1, List.set_append]
    have e3 : ¬ d < ((L.take d).map some).length := by
      rw [List.length_map, List.length_take]; omega
    rw [if_neg e3]
    have e4 : d - ((L.take d).map some).length = 0 := by
      rw [List.length_map, List.length_take]; omega
    rw [e4]
    rfl
  have hl3 : ((L.take (d + 1)).map some ++ M.map some
        ++ some b :: List.replicate k none).set d (some x)
      = (insAt d x L).map some ++ List.replicate k none := by
    have hpar : (L.take (d + 1)).map some ++ M.map some
          ++ some b :: List.replicate k none
        = (L.take (d + 1)).map some
          ++ (M.map some ++ some b :: List.replicate k none) := by
      simp [List.append_assoc]
    rw [hpar, List.set_append]
    have e0 : d < ((L.take (d + 1)).map some).length := by
      rw [List.length_map, List.length_take]; omega
    rw [if_pos e0, e2set]
    simp only [insAt, ← hMb, List.map_append, List.map_cons, List.map_nil,
      List.append_assoc, List.cons_append, List.nil_append,
      List.singleton_append]
  show emplaceNG (mkVec L (k + 1)) d x noGrowOk = _
  unfold emplaceNG
  rw [hsize]
  rw [if_neg (by omega : ¬ n = 0)]
  simp only [noGrowOk, Bool.false_eq_true, if_false, failsAt, reduceIte]
  rw [hdata, hc, hl1]
  rw [if_pos (by omega : d < n)]
  simp only [moveRange]
  rw [hl1drop, hseg, hl2, hl3]
  simp [mkVec, length_insAt d x L (by omega : d ≤ L.length)]

/-- `Emplace` on a full well-formed vector dispatches to the growth path. -/
theorem emplace_mkVec_grow (L : List α) (d : Nat) (x : α) (nf : NoGrowFail)
    (hd : d ≤ L.length) :
    emplace (mkVec L 0) d x growOk nf
      = (.ok (mkVec (insAt d x L) (newCapOf L.length - (L.length + 1))) d,
        .constructNew :: ((List.range d).map .transferPref
          ++ ((List.range (L.length - d)).map .transferSuf
            ++ [.destroyOld, .adopt]))) := by
  unfold emplace
  rw [mkVec_size, if_neg (by omega : ¬ L.length < d),
    if_pos (by rw [mkVec_capacity]; omega : L.length = (mkVec L 0).capacity)]
  exact emplaceG_mkVec L d x hd

/-- `Emplace` on a non-empty well-formed vector with spare capacity
dispatches to the no-growth path. -/
theorem emplace_mkVec_ng (L : List α) (k d : Nat) (x : α) (gf : GrowFail)
    (hd : d < L.length) :
    emplace (mkVec L (k + 1)) d x gf noGrowOk
      = (.ok (mkVec (insAt d x L) k) d, []) := by
  unfold emplace
  rw [mkVec_size, if_neg (by omega : ¬ L.length < d),
    if_neg (by rw [mkVec_capacity]; omega : ¬ L.length = (mkVec L (k + 1)).capacity)]
  exact emplaceNG_mkVec L k d x hd

/-- `Emplace` on an empty vector with spare capacity constructs directly
at the begin position. -/
theorem emplace_mkVec_empty (k : Nat) (x : α) (gf : GrowFail) :
    emplace (mkVec ([] : List α) (k + 1)) 0 x gf noGrowOk
      = (.ok (mkVec [x] k) 0, []) := by
  simp [emplace, emplaceNG, mkVec, noGrowOk, Vec.capacity,
    List.replicate_succ]

theorem length_removeAt (d : Nat) (L : List α) (hd : d < L.length) :
    (removeAt d L).length = L.length - 1 := by
  simp only [removeAt, List.length_append, List.length_take, List.length_drop]
  omega

/-- Characterization of `Erase` at a dereferenceable position of a
well-formed vector. -/
theorem eraseV_mkVec (L : List α) (k d : Nat) (hd : d < L.length) :
    eraseV (mkVec L k) d = (mkVec (removeAt d L) (k + 1), d) := by
  set n := L.length with hn
  have hbL : n - 1 < L.length := by omega
  have hdata : (mkVec L k).data = L.map some ++ List.replicate k none := rfl
  have hsize : (mkVec L k).size = n := rfl
  have hmaplen : (L.map some).length = n := by rw [List.length_map]
  have hdatalen : (mkVec L k).data.length = n + k := by
    rw [hdata, List.length_append, List.length_replicate, hmaplen]
  have hseg : ((mkVec L k).data.drop (d + 1)).take (n - (d + 1))
      = (L.drop (d + 1)).map some := by
    rw [hdata, List.drop_append_eq_append_drop, hmaplen]
    have e1 : d + 1 - n = 0 := by omega
    rw [e1, List.drop_zero, ← List.map_drop, List.take_append_eq_append_take]
    have e2 : ((L.drop (d + 1)).map some).length = n - (d + 1) := by
      rw [List.length_map, List.length_drop]
    rw [List.take_of_length_le (le_of_eq e2), e2, Nat.sub_self, List.take_zero,
      List.append_nil]
  have hseglen : ((L.drop (d + 1)).map some).length = n - d - 1 := by
    rw [List.length_map, List.length_drop]; omega
  have hmr : writeSeg (mkVec L k).data d ((L.drop (d + 1)).map some)
      = (L.take d).map some ++ (L.drop (d + 1)).map some
        ++ some (L.get ⟨n - 1, hbL⟩) :: List.replicate k none := by
    rw [writeSeg_eq _ _ d (by rw [hdatalen, hseglen]; omega)]
    rw [hseglen, hdata, List.take_append_eq_append_take, hmaplen]
    have e1 : d - n = 0 := by omega
    rw [e1, List.take_zero, List.append_nil, ← List.map_take]
    have e2 : d + (n - d - 1) = n - 1 := by omega
    rw [e2, List.drop_append_eq_append_drop, hmaplen]
    have e3 : n - 1 - n = 0 := by omega
    rw [e3, List.drop_zero, ← List.map_drop]
    have e4 : L.drop (n - 1) = [L.get ⟨n - 1, hbL⟩] := by
      rw [List.drop_eq_getElem_cons hbL, List.drop_of_length_le (by omega)]
      rfl
    rw [e4]
    simp [List.append_assoc]
  have hsetlen : ((L.take d).map some ++ (L.drop (d + 1)).map some).length
      = n - 1 := by
    simp only [List.length_append, List.length_map, List.length_take,
      List.length_drop]
    omega
  have hset : ((L.take d).map some ++ (L.drop (d + 1)).map some
        ++ some (L.get ⟨n - 1, hbL⟩) :: List.replicate k none).set (n - 1) none
      = (removeAt d L).map some ++ List.replicate (k + 1) none := by
    rw [List.set_append, if_neg (by rw [hsetlen]; omega),
      hsetlen, Nat.sub_self]
    simp [removeAt, List.map_append, List.append_assoc, List.replicate_succ]
  show eraseV (mkVec L k) d = _
  unfold eraseV moveRange
  rw [hsize, hseg, hmr, hset]
  simp [mkVec, length_removeAt d L hd]

/-- Characterization of `PopBack` on a non-empty well-formed vector. -/
theorem popBackV_mkVec (L : List α) (k : Nat) (hL : 0 < L.length) :
    popBackV (mkVec L k) = mkVec (L.take (L.length - 1)) (k + 1) := by
  set n := L.length with hn
  have hbL : n - 1 < L.length := by omega
  have hmaplen : (L.map some).length = n := by rw [List.length_map]
  show (⟨((mkVec L k).data).set ((mkVec L k).size - 1) none,
    (mkVec L k).size - 1⟩ : Vec α) = _
  have hdata : (mkVec L k).data = L.map some ++ List.replicate k none := rfl
  have hsize : (mkVec L k).size = n := rfl
  rw [hdata, hsize, List.set_append, if_pos (by rw [hmaplen]; omega)]
  have hsetL : (L.map some).set (n - 1) none
      = (L.take (n - 1)).map some ++ [none] := by
    rw [List.set_eq_take_cons_drop none (by rw [hmaplen]; omega)]
    have e1 : n - 1 + 1 = n := by omega
    rw [e1, ← List.map_take, List.drop_of_length_le (le_of_eq hmaplen)]
  rw [hsetL]
  simp only [mkVec, Vec.mk.injEq]
  constructor
  · simp [List.append_assoc, List.replicate_succ]
  · rw [List.length_take]
    omega

/-- Characterization of `Reserve` when it reallocates. -/
theorem reserveCore_mkVec_grow (L : List α) (k m : Nat)
    (h : L.length + k < m) :
    reserveCore (mkVec L k) m = mkVec L (m - L.length) := by
  have hmaplen : (L.map some).length = L.length := by rw [List.length_map]
  unfold reserveCore
  rw [if_pos (by rw [mkVec_capacity]; omega)]
  have htk : (mkVec L k).data.take (mkVec L k).size = L.map some := by
    show (L.map some ++ List.replicate k none).take L.length = _
    rw [List.take_append_eq_append_take, List.take_of_length_le (le_of_eq hmaplen),
      hmaplen, Nat.sub_self, List.take_zero, List.append_nil]
  rw [htk, mkVec_size,
    writeSeg_eq _ _ 0 (by rw [List.length_replicate, hmaplen]; omega)]
  rw [List.take_zero, List.nil_append, Nat.zero_add, hmaplen,
    List.drop_replicate]
  rfl

/-- `Reserve` is a no-op when the requested capacity does not exceed the
current one. -/
theorem reserveCore_noop (v : Vec α) (m : Nat) (h : ¬ v.capacity < m) :
    reserveCore v m = v := by
  unfold reserveCore
  rw [if_neg h]

/-- Characterization of `Resize` when it shrinks. -/
theorem resizeV_mkVec_shrink (L : List α) (k m : Nat) (x : α)
    (h : m < L.length) :
    resizeV (mkVec L k) m x = mkVec (L.take m) (L.length - m + k) := by
  set n := L.length with hn
  have hmaplen : (L.map some).length = n := by rw [List.length_map]
  unfold resizeV
  rw [mkVec_size, if_pos h]
  show (⟨destroyRange (L.map some ++ List.replicate k none) m (n - m), m⟩ : Vec α) = _
  unfold destroyRange
  rw [writeSeg_eq _ _ m
    (by simp only [List.length_append, List.length_replicate, hmaplen]; omega)]
  rw [List.take_append_eq_append_take, hmaplen]
  have e1 : m - n = 0 := by omega
  rw [e1, List.take_zero, List.append_nil, ← List.map_take]
  rw [List.length_replicate]
  have e2 : m + (n - m) = n := by omega
  rw [e2, List.drop_append_eq_append_drop, hmaplen, Nat.sub_self,
    List.drop_zero, List.drop_of_length_le (le_of_eq hmaplen), List.nil_append]
  simp only [mkVec, Vec.mk.injEq]
  constructor
  · rw [List.append_assoc]
    congr 1
    rw [← List.replicate_add]
  · rw [List.length_take]
    omega

/-- Characterization of `Resize` when it grows: the new trailing cells are
value-constructed after an eventual `Reserve`. -/
theorem resizeV_mkVec_grow (L : List α) (k m : Nat) (x : α)
    (h : L.length < m) :
    resizeV (mkVec L k) m x
      = mkVec (L ++ List.replicate (m - L.length) x) (L.length + k - m) := by
  set n := L.length with hn
  have hmaplen : (L.map some).length = n := by rw [List.length_map]
  unfold resizeV
  rw [mkVec_size, if_neg (by omega), if_pos h]
  by_cases hc : (mkVec L k).capacity < m
  · rw [reserveCore_mkVec_grow L k m (by rw [mkVec_capacity] at hc; omega)]
    show (⟨writeSeg (L.map some ++ List.replicate (m - n) none) n
      (List.replicate (m - n) (some x)), m⟩ : Vec α) = _
    rw [writeSeg_eq _ _ n
      (by simp only [List.length_append, List.length_replicate, hmaplen]; omega)]
    rw [List.take_append_eq_append_take, List.take_of_length_le (le_of_eq hmaplen),
      hmaplen, Nat.sub_self, List.take_zero, List.append_nil]
    rw [List.length_replicate, List.drop_append_eq_append_drop, hmaplen]
    rw [List.drop_of_length_le (by rw [hmaplen]; omega)]
    have e1 : n + (m - n) - n = m - n := by omega
    rw [e1, List.drop_replicate, Nat.sub_self, List.nil_append]
    simp only [mkVec, Vec.mk.injEq, List.map_append, List.map_replicate]
    have hck : n + k - m = 0 := by rw [mkVec_capacity] at hc; omega
    constructor
    · rw [hck]
    · simp only [List.length_append, List.length_replicate]
      omega
  · rw [reserveCore_noop _ _ hc]
    rw [mkVec_capacity] at hc
    show (⟨writeSeg (L.map some ++ List.replicate k none) n
      (List.replicate (m - n) (some x)), m⟩ : Vec α) = _
    rw [writeSeg_eq _ _ n
      (by simp only [List.length_append, List.length_replicate, hmaplen]; omega)]
    rw [List.take_append_eq_append_take, List.take_of_length_le (le_of_eq hmaplen),
      hmaplen, Nat.sub_self, List.take_zero, List.append_nil]
    rw [List.length_replicate, List.drop_append_eq_append_drop, hmaplen]
    rw [List.drop_of_length_le (by rw [hmaplen]; omega)]
    have e1 : n + (m - n) - n = m - n := by omega
    rw [e1, List.drop_replicate, List.nil_append]
    simp only [mkVec, Vec.mk.injEq, List.map_append, List.map_replicate]
    constructor
    · have e2 : k - (m - n) = n + k - m := by omega
      rw [e2]
    · simp only [List.length_append, List.length_replicate]
      omega

theorem mkVec_take_size (L : List α) (k : Nat) :
    (mkVec L k).data.take (mkVec L k).size = L.map some := by
  show (L.map some ++ List.replicate k none).take L.length = _
  have hmaplen : (L.map some).length = L.length := by rw [List.length_map]
  rw [List.take_append_eq_append_take, List.take_of_length_le (le_of_eq hmaplen),
    hmaplen, Nat.sub_self, List.take_zero, List.append_nil]

theorem WF.elems_length {v : Vec α} (h : WF v) : v.elems.length = v.size := by
  have := congrArg Vec.size h.eq_mkVec
  rw [mkVec_size] at this
  omega

theorem mkVec_zero_data (L : List α) : (mkVec L 0).data = L.map some := by
  simp [mkVec]

/-- Copy-assignment, reallocating branch, success. -/
theorem copyAssign_big_ok (Lv Lr : List α) (kv kr : Nat) (af : AssignFail)
    (h : Lv.length + kv < Lr.length)
    (hf : failsAt af.tmpFail Lr.length = false) :
    copyAssign (mkVec Lv kv) (mkVec Lr kr) af = .ok (mkVec Lr 0) := by
  unfold copyAssign
  rw [mkVec_size, mkVec_size, if_pos (by rw [mkVec_capacity]; omega)]
  rw [show failsAt af.tmpFail Lr.length = false from hf]
  simp only [Bool.false_eq_true, if_false]
  rw [show (mkVec Lr kr).data.take Lr.length = Lr.map some from mkVec_take_size Lr kr]
  simp [mkVec]

/-- Copy-assignment, in-place branch, shrinking, success. -/
theorem copyAssign_shrink_ok (Lv Lr : List α) (kv kr : Nat) (af : AssignFail)
    (hcap : ¬ Lv.length + kv < Lr.length) (hle : Lr.length ≤ Lv.length)
    (hf : failsAt af.prefFail (min Lr.length Lv.length) = false) :
    copyAssign (mkVec Lv kv) (mkVec Lr kr) af
      = .ok (mkVec Lr (Lv.length - Lr.length + kv)) := by
  have hmaplenv : (Lv.map some).length = Lv.length := by rw [List.length_map]
  have hmaplenr : (Lr.map some).length = Lr.length := by rw [List.length_map]
  unfold copyAssign
  rw [mkVec_size, mkVec_size, if_neg (by rw [mkVec_capacity]; omega)]
  have hm : Lr.length ⊓ Lv.length = Lr.length := by omega
  rw [hm] at hf
  have htk : (mkVec Lr kr).data.take Lr.length = Lr.map some :=
    mkVec_take_size Lr kr
  simp only [hm, hf, Bool.false_eq_true, if_false, if_pos hle, htk]
  have hd1 : writeSeg (mkVec Lv kv).data 0 (Lr.map some)
      = Lr.map some ++ ((Lv.drop Lr.length).map some ++ List.replicate kv none) := by
    show writeSeg (Lv.map some ++ List.replicate kv none) 0 (Lr.map some) = _
    rw [writeSeg_eq _ _ 0
      (by simp only [List.length_append, List.length_replicate, hmaplenv, hmaplenr]; omega)]
    rw [List.take_zero, List.nil_append, Nat.zero_add, hmaplenr,
      List.drop_append_eq_append_drop, ← List.map_drop, hmaplenv]
    have e1 : Lr.length - Lv.length = 0 := by omega
    rw [e1, List.drop_zero]
  rw [hd1]
  unfold destroyRange
  have hlen1 : (Lr.map some ++ ((Lv.drop Lr.length).map some
      ++ List.replicate kv none)).length = Lv.length + kv := by
    simp only [List.length_append, List.length_map, List.length_drop,
      List.length_replicate, hmaplenr]
    omega
  rw [writeSeg_eq _ _ Lr.length
    (by rw [hlen1, List.length_replicate]; omega)]
  rw [List.take_append_eq_append_take, List.take_of_length_le (le_of_eq hmaplenr),
    hmaplenr, Nat.sub_self, List.take_zero, List.append_nil,
    List.length_replicate]
  rw [List.drop_append_eq_append_drop, hmaplenr,
    List.drop_append_eq_append_drop]
  have e2 : List.drop (Lr.length + (Lv.length - Lr.length)) (Lr.map some) = [] :=
    List.drop_of_length_le (by rw [hmaplenr]; omega)
  have e3 : List.drop (Lr.length + (Lv.length - Lr.length) - Lr.length)
      ((Lv.drop Lr.length).map some) = [] :=
    List.drop_of_length_le (by rw [List.length_map, List.length_drop]; omega)
  rw [e2, e3]
  have e4 : Lr.length + (Lv.length - Lr.length) - Lr.length
      - ((Lv.drop Lr.length).map some).length = 0 := by
    rw [List.length_map, List.length_drop]; omega
  rw [e4, List.drop_zero]
  simp only [mkVec, Vec.mk.injEq, List.nil_append, AOut.ok.injEq]
  constructor
  · rw [List.append_assoc, ← List.replicate_add]
  · trivial

/-- Copy-assignment, in-place branch, growing, success. -/
theorem copyAssign_growtail_ok (Lv Lr : List α) (kv kr : Nat) (af : AssignFail)
    (hcap : ¬ Lv.length + kv < Lr.length) (hgt : ¬ Lr.length ≤ Lv.length)
    (hf : failsAt af.prefFail (min Lr.length Lv.length) = false)
    (hf2 : failsAt af.tailFail (Lr.length - Lv.length) = false) :
    copyAssign (mkVec Lv kv) (mkVec Lr kr) af
      = .ok (mkVec Lr (Lv.length + kv - Lr.length)) := by
  have hmaplenv : (Lv.map some).length = Lv.length := by rw [List.length_map]
  have hmaplenr : (Lr.map some).length = Lr.length := by rw [List.length_map]
  unfold copyAssign
  rw [mkVec_size, mkVec_size, if_neg (by rw [mkVec_capacity]; omega)]
  have hm : Lr.length ⊓ Lv.length = Lv.length := by omega
  rw [hm] at hf
  simp only [hm, hf, hf2, Bool.false_eq_true, if_false, if_neg hgt]
  have htk : (mkVec Lr kr).data.take Lv.length = (Lr.take Lv.length).map some := by
    show (Lr.map some ++ List.replicate kr none).take Lv.length = _
    rw [List.take_append_eq_append_take, ← List.map_take, hmaplenr]
    have e1 : Lv.length - Lr.length = 0 := by omega
    rw [e1, List.take_zero, List.append_nil]
  rw [htk]
  have hd1 : writeSeg (mkVec Lv kv).data 0 ((Lr.take Lv.length).map some)
      = (Lr.take Lv.length).map some ++ List.replicate kv none := by
    show writeSeg (Lv.map some ++ List.replicate kv none) 0 _ = _
    have hseglen : ((Lr.take Lv.length).map some).length = Lv.length := by
      rw [List.length_map, List.length_take]; omega
    rw [writeSeg_eq _ _ 0
      (by simp only [List.length_append, List.length_replicate, hmaplenv, hseglen]; omega)]
    rw [List.take_zero, List.nil_append, Nat.zero_add, hseglen,
      List.drop_append_eq_append_drop, hmaplenv, Nat.sub_self, List.drop_zero,
      List.drop_of_length_le (le_of_eq hmaplenv), List.nil_append]
  rw [hd1]
  have hsegtl : ((mkVec Lr kr).data.drop Lv.length).take (Lr.length - Lv.length)
      = (Lr.drop Lv.length).map some := by
    show ((Lr.map some ++ List.replicate kr none).drop Lv.length).take _ = _
    rw [List.drop_append_eq_append_drop, ← List.map_drop, hmaplenr,
      List.take_append_eq_append_take]
    have e1 : ((Lr.drop Lv.length).map some).length = Lr.length - Lv.length := by
      rw [List.length_map, List.length_drop]
    rw [List.take_of_length_le (le_of_eq e1), e1, Nat.sub_self, List.take_zero,
      List.append_nil]
  rw [hsegtl]
  have hseglen1 : ((Lr.take Lv.length).map some).length = Lv.length := by
    rw [List.length_map, List.length_take]; omega
  have hseglen2 : ((Lr.drop Lv.length).map some).length = Lr.length - Lv.length := by
    rw [List.length_map, List.length_drop]
  rw [writeSeg_eq _ _ Lv.length
    (by simp only [List.length_append, List.length_replicate, hseglen1, hseglen2]; omega)]
  rw [List.take_append_eq_append_take, List.take_of_length_le (le_of_eq hseglen1),
    hseglen1, Nat.sub_self, List.take_zero, List.append_nil, hseglen2]
  rw [List.drop_append_eq_append_drop, hseglen1]
  have e2 : List.drop (Lv.length + (Lr.length - Lv.length))
      ((Lr.take Lv.length).map some) = [] :=
    List.drop_of_length_le (by rw [hseglen1]; omega)
  rw [e2, List.nil_append]
  have e3 : Lv.length + (Lr.length - Lv.length) - Lv.length
      = Lr.length - Lv.length := by omega
  rw [e3, List.drop_replicate]
  simp only [mkVec, Vec.mk.injEq, AOut.ok.injEq]
  constructor
  · rw [← List.map_append, List.take_append_drop]
    have e5 : kv - (Lr.length - Lv.length) = Lv.length + kv - Lr.length := by
      omega
    rw [e5]
  · trivial

/-- `Emplace` at the end position of a non-empty vector with spare
capacity: the `std::move_backward` range `[begin()+size_, end()-1)` is
invalid (`first` is one past `last`), which is undefined behavior. -/
theorem emplace_mkVec_ng_end_ub (L : List α) (k : Nat) (x : α)
    (gf : GrowFail) (nf : NoGrowFail) (hL : 0 < L.length)
    (hnf : nf.tmpFail = false) :
    emplace (mkVec L (k + 1)) L.length x gf nf = (.ub, []) := by
  unfold emplace
  rw [mkVec_size, if_neg (by omega : ¬ L.length < L.length),
    if_neg (by rw [mkVec_capacity]; omega : ¬ L.length = (mkVec L (k + 1)).capacity)]
  unfold emplaceNG
  rw [mkVec_size, if_neg (by omega : ¬ L.length = 0), hnf]
  simp only [Bool.false_eq_true, if_false]
  by_cases hm : nf.moveLastFail = true
  · rw [if_pos hm]
  · rw [if_neg hm, if_neg (by omega : ¬ L.length < L.length)]

/-- Result of one public operation in the reachability semantics: normal
return, an exception propagated out of the call, or undefined behavior. -/
inductive ROutcome (α : Type) where
  | ok (v : Vec α)
  | stopped
  | ub
deriving DecidableEq, Repr

def toR : Outcome α → ROutcome α
  | .ok v _ => .ok v
  | .thrown _ _ => .stopped
  | .ub => .ub

/-- The public operations of `Vector`, as state transformers of one
vector (binary operations are represented by the state they leave this
vector in: `copied` replaces the state by a copy-constructed vector,
`movedOut` by the state a vector holds after being moved from, `assign`
copy-assigns from a well-formed right-hand side holding values `xs`;
`Swap` and move-assignment merely exchange two reachable states). -/
inductive Op (α : Type) where
  | ofSize (n : Nat) (x : α)
  | copied
  | movedOut
  | assign (xs : List α)
  | reserveOp (n : Nat)
  | resizeOp (n : Nat) (x : α)
  | insertOp (d : Nat) (x : α)
  | pushOp (x : α)
  | eraseOp (d : Nat)
  | popOp
deriving Repr

/-- One public operation, with the success schedules (no element
operation throws).  `ofSize n x` models `Vector(n)` with `x` the
value-constructed element value; `copied` models `Vector(other)`;
`movedOut` models being the source of `Vector(Vector&&)`; `eraseOp` and
`popOp` check their preconditions (`Erase` needs a dereferenceable
position, `PopBack` a non-empty vector) and are undefined behavior
otherwise. -/
def step (v : Vec α) : Op α → ROutcome α
  | .ofSize n x => .ok ⟨List.replicate n (some x), n⟩
  | .copied => .ok ⟨v.data.take v.size, v.size⟩
  | .movedOut => .ok (moveCtorV v).2
  | .assign xs =>
    match copyAssign v (mkVec xs 0) assignOk with
    | .ok w => .ok w
    | .thrown _ => .stopped
  | .reserveOp n => .ok (reserveCore v n)
  | .resizeOp n x => .ok (resizeV v n x)
  | .insertOp d x => toR (emplace v d x growOk noGrowOk).1
  | .pushOp x => toR (emplace v v.size x growOk noGrowOk).1
  | .eraseOp d => if d < v.size then .ok (eraseV v d).1 else .ub
  | .popOp => if v.size = 0 then .ub else .ok (popBackV v)

def run : ROutcome α → List (Op α) → ROutcome α
  | o, [] => o
  | .ok v, op :: rest => run (step v op) rest
  | .stopped, _ :: _ => .stopped
  | .ub, _ :: _ => .ub

/-- The listed public operations applied in sequence, starting from the
default-constructed (empty) vector. -/
def runOps (ops : List (Op α)) : ROutcome α := run (.ok ⟨[], 0⟩) ops

/-- Every normally returning `Emplace` call (success schedules) inserts
`x` before position `d` of the live values. -/
theorem emplace_ok_shape (L : List α) (k d : Nat) (x : α) :
    ∀ (w : Vec α) (r : Nat),
      (emplace (mkVec L k) d x growOk noGrowOk).1 = .ok w r →
      ∃ ks, w = mkVec (insAt d x L) ks ∧ r = d := by
  intro w r hw
  by_cases hd : d ≤ L.length
  case neg =>
    exfalso
    unfold emplace at hw
    rw [mkVec_size, if_pos (by omega : L.length < d)] at hw
    exact Outcome.noConfusion hw
  cases k with
  | zero =>
    rw [emplace_mkVec_grow L d x noGrowOk hd] at hw
    exact ⟨_, (Outcome.ok.inj hw).1.symm, (Outcome.ok.inj hw).2.symm⟩
  | succ k0 =>
    by_cases hL : L.length = 0
    · have hLnil : L = [] := List.eq_nil_of_length_eq_zero hL
      have hd0 : d = 0 := by omega
      subst hLnil hd0
      rw [emplace_mkVec_empty k0 x growOk] at hw
      exact ⟨k0, (Outcome.ok.inj hw).1.symm, (Outcome.ok.inj hw).2.symm⟩
    · by_cases hdlt : d < L.length
      · rw [emplace_mkVec_ng L k0 d x growOk hdlt] at hw
        exact ⟨k0, (Outcome.ok.inj hw).1.symm, (Outcome.ok.inj hw).2.symm⟩
      · have hde : d = L.length := by omega
        subst hde
        rw [emplace_mkVec_ng_end_ub L k0 x growOk noGrowOk (by omega) rfl] at hw
        exact Outcome.noConfusion hw

/-- Each operation that returns normally from a well-formed state leaves
a well-formed state. -/
theorem step_WF (v : Vec α) (hv : WF v) :
    ∀ (op : Op α) (w : Vec α), step v op = .ok w → WF w := by
  have hshape := hv.eq_mkVec
  set L := v.elems with hLdef
  set k := v.capacity - v.size with hkdef
  intro op w hw
  cases op with
  | ofSize n x =>
    have : w = ⟨List.replicate n (some x), n⟩ := (ROutcome.ok.inj hw).symm
    subst this
    have he : (⟨List.replicate n (some x), n⟩ : Vec α)
        = mkVec (List.replicate n x) 0 := by
      simp [mkVec, List.map_replicate]
    rw [he]
    exact mkVec_WF _ _
  | copied =>
    have : w = ⟨v.data.take v.size, v.size⟩ := (ROutcome.ok.inj hw).symm
    subst this
    rw [hshape]
    have he : (⟨(mkVec L k).data.take (mkVec L k).size, (mkVec L k).size⟩ : Vec α)
        = mkVec L 0 := by
      rw [mkVec_take_size, mkVec_size]
      simp [mkVec]
    rw [he]
    exact mkVec_WF _ _
  | movedOut =>
    have : w = (moveCtorV v).2 := (ROutcome.ok.inj hw).symm
    subst this
    exact mkVec_WF [] 0
  | assign xs =>
    rw [hshape] at hw
    simp only [step] at hw
    rcases hca : copyAssign (mkVec L k) (mkVec xs 0) assignOk with u | u
    · rw [hca] at hw
      have hwu : w = u := (ROutcome.ok.inj hw).symm
      subst hwu
      by_cases hbig : L.length + k < xs.length
      · rw [copyAssign_big_ok L xs k 0 assignOk hbig rfl] at hca
        rw [← (AOut.ok.inj hca)]
        exact mkVec_WF _ _
      · by_cases hle : xs.length ≤ L.length
        · rw [copyAssign_shrink_ok L xs k 0 assignOk hbig hle rfl] at hca
          rw [← (AOut.ok.inj hca)]
          exact mkVec_WF _ _
        · rw [copyAssign_growtail_ok L xs k 0 assignOk hbig hle rfl rfl] at hca
          rw [← (AOut.ok.inj hca)]
          exact mkVec_WF _ _
    · rw [hca] at hw
      exact ROutcome.noConfusion hw
  | reserveOp n =>
    have : w = reserveCore v n := (ROutcome.ok.inj hw).symm
    subst this
    by_cases hc : v.capacity < n
    · rw [hshape, reserveCore_mkVec_grow L k n
        (by rw [← mkVec_capacity L k, ← hshape]; omega)]
      exact mkVec_WF _ _
    · rw [reserveCore_noop v n hc]
      exact hv
  | resizeOp n x =>
    have : w = resizeV v n x := (ROutcome.ok.inj hw).symm
    subst this
    rw [hshape]
    rcases Nat.lt_trichotomy n L.length with h | h | h
    · rw [resizeV_mkVec_shrink L k n x h]
      exact mkVec_WF _ _
    · have : resizeV (mkVec L k) n x = mkVec L k := by
        unfold resizeV
        rw [mkVec_size, if_neg (by omega), if_neg (by omega)]
      rw [this]
      exact mkVec_WF _ _
    · rw [resizeV_mkVec_grow L k n x h]
      exact mkVec_WF _ _
  | insertOp d x =>
    rw [hshape] at hw
    simp only [step] at hw
    cases he : (emplace (mkVec L k) d x growOk noGrowOk).1 with
    | ok u r =>
      rw [he] at hw
      simp only [toR] at hw
      obtain ⟨ks, hks, _⟩ := emplace_ok_shape L k d x u r he
      rw [← (ROutcome.ok.inj hw), hks]
      exact mkVec_WF _ _
    | thrown u l =>
      rw [he] at hw
      exact ROutcome.noConfusion hw
    | ub =>
      rw [he] at hw
      exact ROutcome.noConfusion hw
  | pushOp x =>
    rw [hshape] at hw
    simp only [step] at hw
    cases he : (emplace (mkVec L k) (mkVec L k).size x growOk noGrowOk).1 with
    | ok u r =>
      rw [he] at hw
      simp only [toR] at hw
      rw [mkVec_size] at he
      obtain ⟨ks, hks, _⟩ := emplace_ok_shape L k L.length x u r he
      rw [← (ROutcome.ok.inj hw), hks]
      exact mkVec_WF _ _
    | thrown u l =>
      rw [he] at hw
      exact ROutcome.noConfusion hw
    | ub =>
      rw [he] at hw
      exact ROutcome.noConfusion hw
  | eraseOp d =>
    simp only [step] at hw
    by_cases hd : d < v.size
    · rw [if_pos hd] at hw
      have : w = (eraseV v d).1 := (ROutcome.ok.inj hw).symm
      subst this
      rw [hshape, eraseV_mkVec L k d (by rw [hv.elems_length]; omega)]
      exact mkVec_WF _ _
    · rw [if_neg hd] at hw
      exact ROutcome.noConfusion hw
  | popOp =>
    simp only [step] at hw
    by_cases h0 : v.size = 0
    · rw [if_pos h0] at hw
      exact ROutcome.noConfusion hw
    · rw [if_neg h0] at hw
      have : w = popBackV v := (ROutcome.ok.inj hw).symm
      subst this
      rw [hshape, popBackV_mkVec L k (by rw [hv.elems_length]; omega)]
      exact mkVec_WF _ _

theorem run_WF : ∀ (ops : List (Op α)) (o : ROutcome α),
    (∀ u, o = .ok u → WF u) → ∀ w, run o ops = .ok w → WF w := by
  intro ops
  induction ops with
  | nil =>
    intro o ho w hw
    simp only [run] at hw
    exact ho w hw
  | cons op rest ih =>
    intro o ho w hw
    cases o with
    | ok u =>
      exact ih (step u op) (fun z hz => step_WF u (ho u rfl) op z hz) w hw
    | stopped =>
      simp only [run] at hw
      exact ROutcome.noConfusion hw
    | ub =>
      simp only [run] at hw
      exact ROutcome.noConfusion hw

/-- Every defined (normally returned) state reachable from the empty
vector through the public operations is well-formed. -/
theorem runOps_WF (ops : List (Op α)) (w : Vec α)
    (hw : runOps ops = .ok w) : WF w := by
  refine run_WF ops (.ok ⟨[], 0⟩) ?_ w hw
  intro u hu
  rw [← (ROutcome.ok.inj hu)]
  exact mkVec_WF [] 0

/-- Let-free branch form of the growth path. -/
theorem emplaceG_eq (v : Vec α) (d : Nat) (x : α) (gf : GrowFail) :
    emplaceG v d x gf =
      if gf.argFail then
        (.thrown v (List.replicate (newCapOf v.size) none), [])
      else if failsAt gf.prefFail d then
        (.thrown v
          (((List.replicate (newCapOf v.size) none).set d (some x)).set d none),
          .constructNew :: (List.range (failIdx gf.prefFail)).map .transferPref)
      else if failsAt gf.sufFail (v.size - d) then
        (.thrown v
          (destroyRange (writeSeg ((List.replicate (newCapOf v.size) none).set d
            (some x)) 0 (v.data.take d)) 0 d),
          .constructNew :: ((List.range d).map .transferPref
            ++ (List.range (failIdx gf.sufFail)).map .transferSuf))
      else
        (.ok ⟨writeSeg (writeSeg ((List.replicate (newCapOf v.size) none).set d
            (some x)) 0 (v.data.take d)) (d + 1)
            ((v.data.drop d).take (v.size - d)), v.size + 1⟩ d,
          .constructNew :: ((List.range d).map .transferPref
            ++ ((List.range (v.size - d)).map .transferSuf
              ++ [.destroyOld, .adopt]))) := by
  simp only [emplaceG]

theorem newCapOf_eq_max (n : Nat) : newCapOf n = max 1 (2 * n) := by
  unfold newCapOf
  split <;> omega

/-- C1: `EmplaceBack(args...)` is by definition `Emplace(cend(), args...)`
(first conjunct, definitional).  But on a non-empty vector with spare
capacity — here `[10, 20, 30]` with capacity 4 — the no-growth path runs
`std::move_backward(begin() + 3, end() - 1, data_ + 3)`, an invalid range
(`first` is one past `last`), i.e. undefined behavior: the call does not
return with `Size()` increased by 1 and the stored values unchanged, as
the claim requires for every vector state. -/
theorem claimC1_bug :
    (∀ (v : Vec Nat) (x : Nat) (gf : GrowFail) (nf : NoGrowFail),
        emplaceBack v x gf nf = emplace v v.size x gf nf)
    ∧ emplaceBack (⟨[some 10, some 20, some 30, none], 3⟩ : Vec Nat)
        40 growOk noGrowOk = (.ub, []) :=
  ⟨fun _ _ _ _ => rfl, by decide⟩

/-- C2: growth path of `Emplace` on the full vector `[10, 20, 30]`,
inserting 99 at position 1, with the first suffix transfer throwing.  The
old buffer, size and capacity are left exactly as before the call, but
the `catch` handler runs `std::destroy_n(new_data.GetAddress(), 1)`,
destroying only the transferred prefix: the new element (99 at slot 1 of
the new buffer) is still a live object when the new buffer is
deallocated — it leaks instead of being destroyed as the claim states. -/
theorem claimC2_bug :
    emplace (⟨[some 10, some 20, some 30], 3⟩ : Vec Nat) 1 99
        ⟨false, none, some 0⟩ noGrowOk
      = (.thrown ⟨[some 10, some 20, some 30], 3⟩
          [none, some 99, none, none, none, none],
        [.constructNew, .transferPref 0]) := by decide

/-- C3: no-growth path of `Emplace` on `[10, 20]` with capacity 4,
inserting at the begin position, with the shift's first move-assignment
throwing.  The `catch` handler runs `std::destroy_at(data_ + size_ + 1)`
— slot `size_ + 1 = 3` was never constructed, so the handler itself is
undefined behavior, and the partially constructed trailing element at
slot `size_ = 2` is never destroyed, contradicting the claim that the
failure is propagated only after that element has been destroyed with
the vector unchanged. -/
theorem claimC3_bug :
    emplace (⟨[some 10, some 20, none, none], 2⟩ : Vec Nat) 0 99
        growOk ⟨false, false, some 0, false⟩
      = (.ub, []) := by decide

/-- C4: growth path of `Insert`/`Emplace` (entered when
`size == capacity`): the new buffer has capacity `max(1, size * 2)`; if
any element event happened at all, the very first one was the
construction of the new element at its target offset (so it precedes
every transfer); on normal return the event trace is exactly
construct-new, the prefix transfers, the suffix transfers, and only then
destroy-old and adopt-new; and on every exceptional return the vector
(old buffer, elements, size, capacity) is exactly as before the call and
the old buffer was neither destroyed nor replaced. -/
theorem claimC4 (v : Vec α) (d : Nat) (x : α) (gf : GrowFail)
    (nf : NoGrowFail) (hfull : v.size = v.capacity) (hd : d ≤ v.size) :
    ((emplace v d x gf nf).2 ≠ [] →
      (emplace v d x gf nf).2.head? = some Ev.constructNew)
    ∧ (∀ w r, (emplace v d x gf nf).1 = .ok w r →
        w.capacity = max 1 (2 * v.size)
        ∧ (emplace v d x gf nf).2
          = .constructNew :: ((List.range d).map .transferPref
            ++ ((List.range (v.size - d)).map .transferSuf
              ++ [.destroyOld, .adopt])))
    ∧ (∀ w leak, (emplace v d x gf nf).1 = .thrown w leak →
        w = v ∧ Ev.destroyOld ∉ (emplace v d x gf nf).2
          ∧ Ev.adopt ∉ (emplace v d x gf nf).2) := by
  have hdisp : emplace v d x gf nf = emplaceG v d x gf := by
    unfold emplace
    rw [if_neg (by omega : ¬ v.size < d), if_pos hfull]
  rw [hdisp, emplaceG_eq]
  have hcap : ∀ (l1 l2 : List (Cell α)) (t1 t2 : Nat),
      (writeSeg (writeSeg ((List.replicate (newCapOf v.size)
        (none : Cell α)).set d (some x)) t1 l1) t2 l2).length
      = newCapOf v.size := by
    intro l1 l2 t1 t2
    rw [writeSeg_length, writeSeg_length, List.length_set,
      List.length_replicate]
  split_ifs with h1 h2 h3
  · refine ⟨fun h => absurd rfl h, ?_, ?_⟩
    · intro w r hw
      exact hw.elim
    · intro w leak hw
      refine ⟨((Outcome.thrown.inj hw).1).symm, ?_, ?_⟩ <;> simp
  · refine ⟨fun _ => rfl, ?_, ?_⟩
    · intro w r hw
      exact hw.elim
    · intro w leak hw
      refine ⟨((Outcome.thrown.inj hw).1).symm, ?_, ?_⟩ <;> simp
  · refine ⟨fun _ => rfl, ?_, ?_⟩
    · intro w r hw
      exact hw.elim
    · intro w leak hw
      refine ⟨((Outcome.thrown.inj hw).1).symm, ?_, ?_⟩ <;> simp
  · refine ⟨fun _ => rfl, ?_, ?_⟩
    · intro w r hw
      have hwv : w = ⟨writeSeg (writeSeg ((List.replicate (newCapOf v.size)
          none).set d (some x)) 0 (v.data.take d)) (d + 1)
          ((v.data.drop d).take (v.size - d)), v.size + 1⟩ :=
        ((Outcome.ok.inj hw).1).symm
      subst hwv
      refine ⟨?_, rfl⟩
      show (writeSeg _ _ _).length = _
      rw [hcap, newCapOf_eq_max]
    · intro w leak hw
      exact hw.elim

/-- C4 witness: the claim applied to the full one-element vector `[5]`,
inserting 7 at the end position. -/
theorem claimC4_witness :
    (⟨[some 5], 1⟩ : Vec Nat).size = (⟨[some 5], 1⟩ : Vec Nat).capacity
    ∧ 1 ≤ (⟨[some 5], 1⟩ : Vec Nat).size
    ∧ (((emplace (⟨[some 5], 1⟩ : Vec Nat) 1 7 growOk noGrowOk).2 ≠ [] →
      (emplace (⟨[some 5], 1⟩ : Vec Nat) 1 7 growOk noGrowOk).2.head?
        = some Ev.constructNew)
    ∧ (∀ w r, (emplace (⟨[some 5], 1⟩ : Vec Nat) 1 7 growOk noGrowOk).1
          = .ok w r →
        w.capacity = max 1 (2 * (⟨[some 5], 1⟩ : Vec Nat).size)
        ∧ (emplace (⟨[some 5], 1⟩ : Vec Nat) 1 7 growOk noGrowOk).2
          = .constructNew :: ((List.range 1).map .transferPref
            ++ ((List.range ((⟨[some 5], 1⟩ : Vec Nat).size - 1)).map
                .transferSuf
              ++ [.destroyOld, .adopt])))
    ∧ (∀ w leak, (emplace (⟨[some 5], 1⟩ : Vec Nat) 1 7 growOk noGrowOk).1
          = .thrown w leak →
        w = (⟨[some 5], 1⟩ : Vec Nat)
          ∧ Ev.destroyOld ∉ (emplace (⟨[some 5], 1⟩ : Vec Nat) 1 7
              growOk noGrowOk).2
          ∧ Ev.adopt ∉ (emplace (⟨[some 5], 1⟩ : Vec Nat) 1 7
              growOk noGrowOk).2)) :=
  ⟨rfl, by decide, claimC4 ⟨[some 5], 1⟩ 1 7 growOk noGrowOk rfl (by decide)⟩

/-- C5 counterexample: the claim quantifies over every position in
`[begin, end]`, but at the end position of a non-empty vector with spare
capacity (here `[1]` with capacity 2, position 1) the no-growth path runs
`std::move_backward` over an invalid range — undefined behavior — so no
insertion result is produced at all. -/
theorem claimC5_cex :
    ¬ (∀ (v : Vec Nat) (d : Nat) (x : Nat), WF v → 0 < v.size →
        v.size < v.capacity → d ≤ v.size →
        ∃ w, (emplace v d x growOk noGrowOk).1 = .ok w d
          ∧ w.size = v.size + 1 ∧ w.elems = insAt d x v.elems) := by
  intro h
  obtain ⟨w, hw, -, -⟩ := h ⟨[some 1, none], 1⟩ 1 7 (by decide) (by decide)
    (by decide) (by decide)
  have he : (emplace (⟨[some 1, none], 1⟩ : Vec Nat) 1 7 growOk noGrowOk).1
      = Outcome.ub := by decide
  rw [he] at hw
  exact Outcome.noConfusion hw

/-- C5 amended: on a non-empty vector with spare capacity and a position
strictly inside `[begin, end)`, the no-growth path of `Insert`/`Emplace`
(temporary first, move-construct the last element into the trailing slot,
backward shift of `[position, end-1)`, move-assign the temporary into
`position`) returns normally with the value inserted before `position`,
size one larger and capacity unchanged; since the value is captured in
the temporary before any cell is touched, inserting a reference to an
element of the same vector equals inserting an independent copy of that
value (the theorem holds for the inserted value itself, however
obtained).  At `position = end` the shift range is invalid (undefined
behavior), so that position is excluded. -/
theorem claimC5_amended (v : Vec α) (d : Nat) (x : α) (hv : WF v)
    (h0 : 0 < v.size) (hcap : v.size < v.capacity) (hd : d < v.size) :
    ∃ w, (emplace v d x growOk noGrowOk).1 = .ok w d
      ∧ w.size = v.size + 1 ∧ w.capacity = v.capacity
      ∧ w.elems = insAt d x v.elems := by
  obtain ⟨k0, hk0⟩ : ∃ k0, v.capacity - v.size = k0 + 1 :=
    ⟨v.capacity - v.size - 1, by omega⟩
  have hdL : d < v.elems.length := by rw [hv.elems_length]; omega
  have hmk := emplace_mkVec_ng v.elems k0 d x growOk hdL
  rw [← hk0, ← hv.eq_mkVec] at hmk
  refine ⟨mkVec (insAt d x v.elems) k0, ?_, ?_, ?_, ?_⟩
  · rw [hmk]
  · rw [mkVec_size, length_insAt _ _ _ (by omega), hv.elems_length]
  · rw [mkVec_capacity, length_insAt _ _ _ (by omega)]
    have := hv.elems_length
    omega
  · rw [mkVec_elems]

/-- C5 witness: inserting 9 at position 0 of `[1]` with capacity 2. -/
theorem claimC5_witness :
    WF (⟨[some 1, none], 1⟩ : Vec Nat)
    ∧ (∃ w, (emplace (⟨[some 1, none], 1⟩ : Vec Nat) 0 9
          growOk noGrowOk).1 = .ok w 0
        ∧ w.size = (⟨[some 1, none], 1⟩ : Vec Nat).size + 1
        ∧ w.capacity = (⟨[some 1, none], 1⟩ : Vec Nat).capacity
        ∧ w.elems = insAt 0 9 (⟨[some 1, none], 1⟩ : Vec Nat).elems) :=
  ⟨by decide, claimC5_amended ⟨[some 1, none], 1⟩ 0 9 (by decide) (by decide)
    (by decide) (by decide)⟩

/-- C6: `Reserve(n)` is a no-op when `n ≤ Capacity()`; when
`n > Capacity()` it makes the capacity exactly `n` and leaves the size
and the stored values unchanged; and the transfer uses
`uninitialized_move` exactly when T's move constructor cannot throw or T
is not copy-constructible (the `if constexpr` condition), otherwise
`uninitialized_copy`. -/
theorem claimC6 (v : Vec α) (n : Nat) (cc nm : Bool) (hv : WF v) :
    (n ≤ v.capacity → reserve v n cc nm = (v, none))
    ∧ (v.capacity < n →
        (reserve v n cc nm).1.capacity = n
        ∧ (reserve v n cc nm).1.size = v.size
        ∧ (reserve v n cc nm).1.elems = v.elems
        ∧ (reserve v n cc nm).2 = some (reserveTransferByMove cc nm))
    ∧ (reserveTransferByMove cc nm = true ↔ (nm = true ∨ cc = false)) := by
  refine ⟨?_, ?_, ?_⟩
  · intro hle
    unfold reserve
    rw [reserveCore_noop v n (by omega), if_neg (by omega)]
  · intro hgt
    have hLlen := hv.elems_length
    have hLcap : v.elems.length + (v.capacity - v.size) < n := by
      have := hv.1
      simp only [Vec.capacity] at hgt ⊢
      omega
    have hmk := reserveCore_mkVec_grow v.elems (v.capacity - v.size) n hLcap
    rw [← hv.eq_mkVec] at hmk
    have h1 : (reserve v n cc nm).1 = reserveCore v n := rfl
    refine ⟨?_, ?_, ?_, ?_⟩
    · rw [h1, hmk, mkVec_capacity]
      omega
    · rw [h1, hmk, mkVec_size, hLlen]
    · rw [h1, hmk, mkVec_elems]
    · unfold reserve
      rw [if_pos hgt]
  · cases cc <;> cases nm <;> simp [reserveTransferByMove]

/-- C6 witness: `Reserve(5)` on the one-element vector `[3]`. -/
theorem claimC6_witness :
    WF (⟨[some 3], 1⟩ : Vec Nat)
    ∧ ((5 ≤ (⟨[some 3], 1⟩ : Vec Nat).capacity →
        reserve (⟨[some 3], 1⟩ : Vec Nat) 5 true false
          = (⟨[some 3], 1⟩, none))
    ∧ ((⟨[some 3], 1⟩ : Vec Nat).capacity < 5 →
        (reserve (⟨[some 3], 1⟩ : Vec Nat) 5 true false).1.capacity = 5
        ∧ (reserve (⟨[some 3], 1⟩ : Vec Nat) 5 true false).1.size
          = (⟨[some 3], 1⟩ : Vec Nat).size
        ∧ (reserve (⟨[some 3], 1⟩ : Vec Nat) 5 true false).1.elems
          = (⟨[some 3], 1⟩ : Vec Nat).elems
        ∧ (reserve (⟨[some 3], 1⟩ : Vec Nat) 5 true false).2
          = some (reserveTransferByMove true false))
    ∧ (reserveTransferByMove true false = true
        ↔ (false = true ∨ true = false))) :=
  ⟨by decide, claimC6 ⟨[some 3], 1⟩ 5 true false (by decide)⟩

/-- C8: move-construction adopts the source's buffer and size — the new
vector has the source's previous size, capacity and element values — and
leaves the source empty: afterward the source reports `Size() == 0` and
its buffer has been transferred away (null buffer, capacity 0).  The
model is a total function: no element operation is performed, so nothing
can throw. -/
theorem claimC8 (other : Vec α) :
    (moveCtorV other).1.size = other.size
    ∧ (moveCtorV other).1.capacity = other.capacity
    ∧ (moveCtorV other).1.elems = other.elems
    ∧ (moveCtorV other).2.size = 0
    ∧ (moveCtorV other).2.capacity = 0 :=
  ⟨rfl, rfl, rfl, rfl, rfl⟩

/-- Copy-assignment, reallocating branch, with the temporary's
copy-construction throwing: the target is untouched. -/
theorem copyAssign_big_thrown (Lv Lr : List α) (kv kr : Nat)
    (af : AssignFail) (h : Lv.length + kv < Lr.length)
    (hf : failsAt af.tmpFail Lr.length = true) :
    copyAssign (mkVec Lv kv) (mkVec Lr kr) af = .thrown (mkVec Lv kv) := by
  unfold copyAssign
  rw [mkVec_size, mkVec_size, if_pos (by rw [mkVec_capacity]; omega)]
  simp [hf]

/-- Copy-assignment, in-place branch, with an in-place prefix
copy-assignment throwing: the size is unchanged (only prefix cells were
overwritten, in place). -/
theorem copyAssign_pref_thrown (Lv Lr : List α) (kv kr : Nat)
    (af : AssignFail) (hcap : ¬ Lv.length + kv < Lr.length)
    (hf : failsAt af.prefFail (Lr.length ⊓ Lv.length) = true) :
    copyAssign (mkVec Lv kv) (mkVec Lr kr) af
      = .thrown ⟨writeSeg (mkVec Lv kv).data 0
          ((mkVec Lr kr).data.take (failIdx af.prefFail)), Lv.length⟩ := by
  unfold copyAssign
  rw [mkVec_size, mkVec_size, if_neg (by rw [mkVec_capacity]; omega)]
  simp [hf]

/-- Copy-assignment, in-place growing branch, with a tail
copy-construction throwing: the size is unchanged. -/
theorem copyAssign_tail_thrown (Lv Lr : List α) (kv kr : Nat)
    (af : AssignFail) (hcap : ¬ Lv.length + kv < Lr.length)
    (hgt : ¬ Lr.length ≤ Lv.length)
    (hf : failsAt af.prefFail (Lr.length ⊓ Lv.length) = false)
    (hf2 : failsAt af.tailFail (Lr.length - Lv.length) = true) :
    copyAssign (mkVec Lv kv) (mkVec Lr kr) af
      = .thrown ⟨writeSeg (mkVec Lv kv).data 0
          ((mkVec Lr kr).data.take (Lr.length ⊓ Lv.length)), Lv.length⟩ := by
  unfold copyAssign
  rw [mkVec_size, mkVec_size, if_neg (by rw [mkVec_capacity]; omega)]
  simp [hf, hf2, hgt]

/-- C7: copy-assignment between distinct vectors.  When
`rhs.size > capacity` and the temporary's copy-construction throws, the
target is returned unmodified (strong guarantee).  Every normal return
yields a vector element-wise equal to `rhs` with `size = rhs.size` (and
well-formed).  Every exceptional return leaves `size` and `capacity`
exactly as before — `size = rhs.size` is only ever set after both the
prefix phase and the shrink/grow tail phase succeed. -/
theorem claimC7 (v rhs : Vec α) (af : AssignFail) (hv : WF v)
    (hr : WF rhs) :
    (v.capacity < rhs.size → failsAt af.tmpFail rhs.size = true →
        copyAssign v rhs af = .thrown v)
    ∧ (∀ w, copyAssign v rhs af = .ok w →
        w.elems = rhs.elems ∧ w.size = rhs.size ∧ WF w)
    ∧ (∀ w, copyAssign v rhs af = .thrown w →
        w.size = v.size ∧ w.capacity = v.capacity) := by
  have hveq := hv.eq_mkVec
  have hreq := hr.eq_mkVec
  set Lv := v.elems with hLv
  set kv := v.capacity - v.size with hkv
  set Lr := rhs.elems with hLr
  set kr := rhs.capacity - rhs.size with hkr
  have hszv : v.size = Lv.length := (hv.elems_length).symm
  have hszr : rhs.size = Lr.length := (hr.elems_length).symm
  have hcapv : v.capacity = Lv.length + kv := by
    have := hv.1
    simp only [Vec.capacity] at *
    omega
  have hcapr : rhs.capacity = Lr.length + kr := by
    have := hr.1
    simp only [Vec.capacity] at *
    omega
  refine ⟨?_, ?_, ?_⟩
  · intro hcap htf
    rw [hveq, hreq, copyAssign_big_thrown Lv Lr kv kr af (by omega)
      (by rwa [hszr] at htf), ← hveq]
  · intro w hw
    rw [hveq, hreq] at hw
    by_cases hbig : Lv.length + kv < Lr.length
    · cases hb : failsAt af.tmpFail Lr.length with
      | true =>
        rw [copyAssign_big_thrown Lv Lr kv kr af hbig hb] at hw
        exact AOut.noConfusion hw
      | false =>
        rw [copyAssign_big_ok Lv Lr kv kr af hbig hb] at hw
        have hwv : w = mkVec Lr 0 := (AOut.ok.inj hw).symm
        subst hwv
        exact ⟨mkVec_elems Lr 0, by rw [mkVec_size, hszr], mkVec_WF Lr 0⟩
    · cases hbp : failsAt af.prefFail (Lr.length ⊓ Lv.length) with
      | true =>
        rw [copyAssign_pref_thrown Lv Lr kv kr af hbig hbp] at hw
        exact AOut.noConfusion hw
      | false =>
        by_cases hle : Lr.length ≤ Lv.length
        · rw [copyAssign_shrink_ok Lv Lr kv kr af hbig hle hbp] at hw
          have hwv : w = mkVec Lr (Lv.length - Lr.length + kv) :=
            (AOut.ok.inj hw).symm
          subst hwv
          exact ⟨mkVec_elems _ _, by rw [mkVec_size, hszr], mkVec_WF _ _⟩
        · cases hbt : failsAt af.tailFail (Lr.length - Lv.length) with
          | true =>
            rw [copyAssign_tail_thrown Lv Lr kv kr af hbig hle hbp hbt] at hw
            exact AOut.noConfusion hw
          | false =>
            rw [copyAssign_growtail_ok Lv Lr kv kr af hbig hle hbp hbt] at hw
            have hwv : w = mkVec Lr (Lv.length + kv - Lr.length) :=
              (AOut.ok.inj hw).symm
            subst hwv
            exact ⟨mkVec_elems _ _, by rw [mkVec_size, hszr], mkVec_WF _ _⟩
  · intro w hw
    rw [hveq, hreq] at hw
    by_cases hbig : Lv.length + kv < Lr.length
    · cases hb : failsAt af.tmpFail Lr.length with
      | true =>
        rw [copyAssign_big_thrown Lv Lr kv kr af hbig hb] at hw
        have hwv : w = mkVec Lv kv := (AOut.thrown.inj hw).symm
        subst hwv
        exact ⟨by rw [mkVec_size, hszv], by rw [mkVec_capacity, hcapv]⟩
      | false =>
        rw [copyAssign_big_ok Lv Lr kv kr af hbig hb] at hw
        exact AOut.noConfusion hw
    · cases hbp : failsAt af.prefFail (Lr.length ⊓ Lv.length) with
      | true =>
        rw [copyAssign_pref_thrown Lv Lr kv kr af hbig hbp] at hw
        have hwv : w = ⟨writeSeg (mkVec Lv kv).data 0
            ((mkVec Lr kr).data.take (failIdx af.prefFail)), Lv.length⟩ :=
          (AOut.thrown.inj hw).symm
        subst hwv
        constructor
        · rw [hszv]
        · show (writeSeg _ _ _).length = _
          rw [writeSeg_length]
          show (mkVec Lv kv).capacity = _
          rw [mkVec_capacity, hcapv]
      | false =>
        by_cases hle : Lr.length ≤ Lv.length
        · rw [copyAssign_shrink_ok Lv Lr kv kr af hbig hle hbp] at hw
          exact AOut.noConfusion hw
        · cases hbt : failsAt af.tailFail (Lr.length - Lv.length) with
          | true =>
            rw [copyAssign_tail_thrown Lv Lr kv kr af hbig hle hbp hbt] at hw
            have hwv : w = ⟨writeSeg (mkVec Lv kv).data 0
                ((mkVec Lr kr).data.take (Lr.length ⊓ Lv.length)),
                Lv.length⟩ :=
              (AOut.thrown.inj hw).symm
            subst hwv
            constructor
            · rw [hszv]
            · show (writeSeg _ _ _).length = _
              rw [writeSeg_length]
              show (mkVec Lv kv).capacity = _
              rw [mkVec_capacity, hcapv]
          | false =>
            rw [copyAssign_growtail_ok Lv Lr kv kr af hbig hle hbp hbt] at hw
            exact AOut.noConfusion hw

/-- C7 witness: assigning the two-element vector `[2, 3]` to the
one-element vector `[1]` (growth via the temporary-and-swap branch). -/
theorem claimC7_witness :
    WF (⟨[some 1], 1⟩ : Vec Nat) ∧ WF (⟨[some 2, some 3], 2⟩ : Vec Nat)
    ∧ (((⟨[some 1], 1⟩ : Vec Nat).capacity
          < (⟨[some 2, some 3], 2⟩ : Vec Nat).size →
        failsAt assignOk.tmpFail (⟨[some 2, some 3], 2⟩ : Vec Nat).size
          = true →
        copyAssign (⟨[some 1], 1⟩ : Vec Nat) ⟨[some 2, some 3], 2⟩ assignOk
          = .thrown ⟨[some 1], 1⟩)
    ∧ (∀ w, copyAssign (⟨[some 1], 1⟩ : Vec Nat) ⟨[some 2, some 3], 2⟩
          assignOk = .ok w →
        w.elems = (⟨[some 2, some 3], 2⟩ : Vec Nat).elems
          ∧ w.size = (⟨[some 2, some 3], 2⟩ : Vec Nat).size ∧ WF w)
    ∧ (∀ w, copyAssign (⟨[some 1], 1⟩ : Vec Nat) ⟨[some 2, some 3], 2⟩
          assignOk = .thrown w →
        w.size = (⟨[some 1], 1⟩ : Vec Nat).size
          ∧ w.capacity = (⟨[some 1], 1⟩ : Vec Nat).capacity)) :=
  ⟨by decide, by decide,
    claimC7 ⟨[some 1], 1⟩ ⟨[some 2, some 3], 2⟩ assignOk (by decide)
      (by decide)⟩

/-- C9 counterexample: four pushes from the empty vector —
`PushBack(1)`, `PushBack(2)`, `PushBack(3)` grow the buffer each time
(capacities 1, 2, 4), but `PushBack(4)` finds spare capacity and takes
the no-growth path at the end position, whose backward shift has an
invalid range: the execution is undefined behavior, so not every
reachable execution ends in a well-formed state. -/
theorem claimC9_cex :
    ¬ (∀ (ops : List (Op Nat)), ∃ w, runOps ops = .ok w ∧ WF w) := by
  intro h
  obtain ⟨w, hw, -⟩ := h [.pushOp 1, .pushOp 2, .pushOp 3, .pushOp 4]
  have he : runOps ([.pushOp 1, .pushOp 2, .pushOp 3, .pushOp 4]
      : List (Op Nat)) = .ub := by decide
  rw [he] at hw
  exact ROutcome.noConfusion hw

/-- C9 amended: every state in which a sequence of public operations
(construction with a size, copy/move construction, copy assignment,
Reserve, Resize, Insert/Emplace, EmplaceBack/PushBack, Erase, PopBack;
Swap and move-assignment only exchange two such states) leaves the
vector, when every operation returned normally, satisfies the invariant:
cells `[0, size)` are live, cells `[size, capacity)` are uninitialized,
and `size ≤ capacity`.  Executions that hit the undefined-behavior paths
(insertion at the end of a non-empty, non-full vector; the no-growth
failure handler; precondition violations) yield no state and are
excluded. -/
theorem claimC9_amended (ops : List (Op α)) (w : Vec α)
    (hw : runOps ops = .ok w) : WF w :=
  runOps_WF ops w hw

/-- C9 witness: one push from empty reaches `[1]`, which is well-formed. -/
theorem claimC9_witness :
    runOps ([.pushOp 1] : List (Op Nat)) = .ok ⟨[some 1], 1⟩
    ∧ WF (⟨[some 1], 1⟩ : Vec Nat) :=
  ⟨by decide, claimC9_amended [.pushOp 1] ⟨[some 1], 1⟩ (by decide)⟩

/-- C10 counterexample: the claim quantifies over every valid position in
`[begin, end]`, but inserting at the end position of `[1]` with capacity
2 takes the no-growth path with an invalid backward-shift range —
undefined behavior — so the insert-then-erase round trip produces no
result at all there. -/
theorem claimC10_cex :
    ¬ (∀ (v : Vec Nat) (d : Nat) (x : Nat), WF v → d ≤ v.size →
        ∃ w, (emplace v d x growOk noGrowOk).1 = .ok w d
          ∧ ((eraseV w d).1).elems = v.elems
          ∧ ((eraseV w d).1).size = v.size) := by
  intro h
  obtain ⟨w, hw, -, -⟩ := h ⟨[some 1, none], 1⟩ 1 7 (by decide) (by decide)
  have he : (emplace (⟨[some 1, none], 1⟩ : Vec Nat) 1 7 growOk noGrowOk).1
      = Outcome.ub := by decide
  rw [he] at hw
  exact Outcome.noConfusion hw

/-- C10 amended: for every valid position `d ≤ size` at which the insert
is defined — any position when the vector is full (growth path) or
empty, and positions strictly before the end otherwise — `Insert` at `d`
followed by `Erase` at the returned position restores the original
element sequence and size.  The end position of a non-empty, non-full
vector is excluded: there the insert itself is undefined behavior. -/
theorem claimC10_amended (v : Vec α) (d : Nat) (x : α) (hv : WF v)
    (hd : d ≤ v.size)
    (hside : d < v.size ∨ v.size = v.capacity ∨ v.size = 0) :
    ∃ w, (emplace v d x growOk noGrowOk).1 = .ok w d
      ∧ ((eraseV w d).1).elems = v.elems
      ∧ ((eraseV w d).1).size = v.size := by
  set L := v.elems with hL
  set k := v.capacity - v.size with hk
  have hszL : v.size = L.length := (hv.elems_length).symm
  have hok : ∃ ks, (emplace v d x growOk noGrowOk).1
      = .ok (mkVec (insAt d x L) ks) d := by
    rcases Nat.eq_zero_or_pos k with hk0 | hkpos
    · have hmk := emplace_mkVec_grow L d x noGrowOk (by omega)
      rw [← hk0, ← hv.eq_mkVec] at hmk
      exact ⟨_, by rw [hmk]⟩
    · obtain ⟨k0, hk0⟩ : ∃ k0, k = k0 + 1 := ⟨k - 1, by omega⟩
      by_cases hL0 : L.length = 0
      · have hLnil : L = [] := List.eq_nil_of_length_eq_zero hL0
        have hd0 : d = 0 := by omega
        have hmk := emplace_mkVec_empty (α := α) k0 x growOk
        rw [← hLnil, ← hk0, ← hv.eq_mkVec] at hmk
        subst hd0
        refine ⟨k0, ?_⟩
        rw [hmk, hLnil]
        rfl
      · have hdlt : d < L.length := by
          rcases hside with h | h | h
          · omega
          · exfalso
            have : v.capacity = v.size + k := by
              have := hv.1
              simp only [Vec.capacity] at *
              omega
            omega
          · omega
        have hmk := emplace_mkVec_ng L k0 d x growOk hdlt
        rw [← hk0, ← hv.eq_mkVec] at hmk
        exact ⟨k0, by rw [hmk]⟩
  obtain ⟨ks, hks⟩ := hok
  refine ⟨mkVec (insAt d x L) ks, hks, ?_, ?_⟩
  · rw [eraseV_mkVec (insAt d x L) ks d
      (by rw [length_insAt d x L (by omega)]; omega)]
    rw [mkVec_elems, removeAt_insAt d x L (by omega)]
  · rw [eraseV_mkVec (insAt d x L) ks d
      (by rw [length_insAt d x L (by omega)]; omega)]
    rw [mkVec_size, length_removeAt _ _
      (by rw [length_insAt d x L (by omega)]; omega),
      length_insAt d x L (by omega)]
    omega

/-- C10 witness: insert 9 at position 0 of the full vector `[1]`, then
erase at the returned position. -/
theorem claimC10_witness :
    WF (⟨[some 1], 1⟩ : Vec Nat)
    ∧ (∃ w, (emplace (⟨[some 1], 1⟩ : Vec Nat) 0 9 growOk noGrowOk).1
          = .ok w 0
        ∧ ((eraseV w 0).1).elems = (⟨[some 1], 1⟩ : Vec Nat).elems
        ∧ ((eraseV w 0).1).size = (⟨[some 1], 1⟩ : Vec Nat).size) :=
  ⟨by decide, claimC10_amended ⟨[some 1], 1⟩ 0 9 (by decide) (by decide)
    (Or.inr (Or.inl rfl))⟩

end AdvVector
